import Mathlib

/-
Verification of the compose-sequence engine (compose table builder and
runtime state machine) of libxkbcommon, via a shallow embedding.

Conventions of the embedding:
- Keysyms are natural numbers; the sentinel NoSymbol is 0 (XKB_KEY_NoSymbol).
- The dynamic array of nodes (darray of struct node) is a List Node indexed
  from 0; darray_item is total indexing with a zero node as default, which
  agrees with the C code on every in-range access.
- The interned UTF-8 blob (darray_char) is a List Char; the C code stores
  NUL-terminated byte strings in it, modelled here at the level of
  characters with Char.ofNat 0 playing the role of the NUL byte.
- External collaborators (xkb_keysym_is_modifier, xkb_keysym_to_utf8, the
  file system behind include directives) are parameters of the functions
  that call them.
- Loops that follow next links in the C source are written with an explicit
  fuel argument; the length of the node array is always sufficient fuel
  because every link points to a strictly larger index (proved below).
-/

/-! ## Data model: struct node, struct xkb_compose -/

structure Node where
  keysym : Nat
  next : Nat
  successor : Nat
  utf8 : Nat
  ks : Nat
deriving DecidableEq, Repr

def Node.empty : Node := { keysym := 0, next := 0, successor := 0, utf8 := 0, ks := 0 }

/-- Total version of darray_item on the node array. -/
def nodeAt (tree : List Node) (i : Nat) : Node :=
  tree.getD i Node.empty

structure xkb_compose where
  tree : List Node
  utf8 : List Char
deriving DecidableEq, Repr

/-- The table built by xkb_compose_new: a single root node with
keysym = NoSymbol and all links zero, and a one-byte blob holding NUL. -/
def xkb_compose_new : xkb_compose :=
  { tree := [Node.empty], utf8 := [Char.ofNat 0] }

/-! ## Trie builder: add_node and add_production -/

/-- Embedding of add_node: append a fresh node for the given keysym and
return the new tree together with the index of the appended node. -/
def add_node (tree : List Node) (keysym : Nat) : List Node × Nat :=
  (tree ++ [{ keysym := keysym, next := 0, successor := 0, utf8 := 0, ks := 0 }], tree.length)

/-- The inner while loop of add_production: follow the sibling chain from
curr until a node with the wanted keysym is found; if the chain ends
without a match, append a fresh node and link it via next. -/
def find_or_add (tree : List Node) (fuel : Nat) (curr : Nat) (keysym : Nat) : List Node × Nat :=
  match fuel with
  | 0 => (tree, curr)
  | fuel + 1 =>
    let node := nodeAt tree curr
    if node.keysym = keysym then (tree, curr)
    else if node.next ≠ 0 then find_or_add tree fuel node.next keysym
    else
      let r := add_node tree keysym
      (r.1.set curr { node with next := r.2 }, r.2)

/-- The descent step of add_production for a non-final position: if the
current node has a successor, move to it; otherwise clear utf8 and ks (the
prefix-override step, logged with a warning in the source) and allocate a
fresh successor node seeded with the next keysym of the sequence. -/
def descend_or_add (tree : List Node) (curr : Nat) (next_keysym : Nat) : List Node × Nat :=
  let node := nodeAt tree curr
  if node.successor ≠ 0 then (tree, node.successor)
  else
    let r := add_node tree next_keysym
    (r.1.set curr { node with utf8 := 0, ks := 0, successor := r.2 }, r.2)

/-- The for loop of add_production over the left-hand side: at each
position find or create the sibling for the keysym, and between positions
descend through the successor link. Returns the final tree and the index
of the node for the last keysym. -/
def add_production_lhs (tree : List Node) (curr : Nat) : List Nat → List Node × Nat
  | [] => (tree, curr)
  | [k] => find_or_add tree tree.length curr k
  | k :: k2 :: rest =>
    let r1 := find_or_add tree tree.length curr k
    let r2 := descend_or_add r1.1 r1.2 k2
    add_production_lhs r2.1 r2.2 (k2 :: rest)

structure Production where
  lhs : List Nat
  keysym : Nat
  string : String
  has_keysym : Bool
  has_string : Bool
deriving DecidableEq, Repr

/-- Embedding of add_production: walk or build the path for the left-hand
side, then resolve conflicts at the final node and record the right-hand
side. The utf8 offset recorded is the blob size before the append, exactly
as in the source. -/
def add_production (compose : xkb_compose) (production : Production) : xkb_compose :=
  let r := add_production_lhs compose.tree 0 production.lhs
  let node := nodeAt r.1 r.2
  if node.successor ≠ 0 then { compose with tree := r.1 }
  else if node.utf8 ≠ 0 ∨ node.ks ≠ 0 then { compose with tree := r.1 }
  else
    let node2 := if production.has_string then { node with utf8 := compose.utf8.length } else node
    let node3 := if production.has_keysym then { node2 with ks := production.keysym } else node2
    let blob2 := if production.has_string
      then compose.utf8 ++ production.string.data ++ [Char.ofNat 0]
      else compose.utf8
    { tree := r.1.set r.2 node3, utf8 := blob2 }

/-- A production as handed to add_production by the parser: at least one
left-hand keysym, and no left-hand keysym is NoSymbol (the lexer rejects
unrecognized keysym names before they reach the parser). -/
def GoodProd (p : Production) : Prop :=
  p.lhs ≠ [] ∧ ∀ k ∈ p.lhs, k ≠ 0

instance (p : Production) : Decidable (GoodProd p) := by
  unfold GoodProd; infer_instance

/-- The compose tables reachable in the library: the result of
xkb_compose_new followed by any sequence of add_production calls. -/
inductive Built : xkb_compose → Prop
  | base : Built xkb_compose_new
  | step {c p} : Built c → GoodProd p → Built (add_production c p)

/-! ## Runtime state machine -/

structure xkb_compose_state where
  prev_context : Nat
  context : Nat
deriving DecidableEq, Repr

def xkb_compose_state_new : xkb_compose_state :=
  { prev_context := 0, context := 0 }

/-- The while loop of xkb_compose_state_feed: walk the sibling chain while
the keysym does not match and a next link exists. -/
def feed_search (tree : List Node) : Nat → Nat → Nat → Nat
  | 0, context, _ => context
  | fuel + 1, context, keysym =>
    let node := nodeAt tree context
    if node.keysym ≠ keysym ∧ node.next ≠ 0 then feed_search tree fuel node.next keysym
    else context

/-- Embedding of xkb_compose_state_feed; the external
xkb_keysym_is_modifier is a parameter. -/
def xkb_compose_state_feed (is_modifier : Nat → Bool) (compose : xkb_compose)
    (state : xkb_compose_state) (keysym : Nat) : xkb_compose_state :=
  if is_modifier keysym then state
  else
    let node := nodeAt compose.tree state.context
    let context0 := if node.successor ≠ 0 then node.successor else 0
    let context1 := feed_search compose.tree compose.tree.length context0 keysym
    let context2 := if (nodeAt compose.tree context1).keysym ≠ keysym then 0 else context1
    { prev_context := state.context, context := context2 }

inductive xkb_compose_status where
  | nothing
  | composing
  | composed
  | cancelled
deriving DecidableEq, Repr

/-- Embedding of xkb_compose_state_get_status. -/
def xkb_compose_state_get_status (compose : xkb_compose)
    (state : xkb_compose_state) : xkb_compose_status :=
  let prev_node := nodeAt compose.tree state.prev_context
  let node := nodeAt compose.tree state.context
  if state.context = 0 ∧ prev_node.successor ≠ 0 then .cancelled
  else if state.context = 0 then .nothing
  else if node.successor ≠ 0 then .composing
  else .composed

/-- The NUL-terminated string stored in the blob at the given offset. -/
def strFromBlob (blob : List Char) (off : Nat) : String :=
  String.mk ((blob.drop off).takeWhile (fun c => c != Char.ofNat 0))

/-- Model of snprintf(buffer, size, s): the result is the pair of the
return value (the full length of s, the would-have-been length) and the
string actually stored in the buffer (s truncated to size - 1 characters;
nothing is written when size is 0). -/
def snprintf_model (size : Nat) (s : String) : Nat × String :=
  (s.length, String.mk (s.data.take (size - 1)))

/-- Embedding of xkb_compose_state_get_utf8; the external
xkb_keysym_to_utf8 is a parameter with the same result convention. -/
def xkb_compose_state_get_utf8 (xkb_keysym_to_utf8 : Nat → Nat → Nat × String)
    (compose : xkb_compose) (state : xkb_compose_state) (size : Nat) : Nat × String :=
  let node := nodeAt compose.tree state.context
  if node.utf8 = 0 ∧ node.ks ≠ 0 then xkb_keysym_to_utf8 node.ks size
  else snprintf_model size (strFromBlob compose.utf8 node.utf8)

/-- Embedding of xkb_compose_state_get_one_sym. -/
def xkb_compose_state_get_one_sym (compose : xkb_compose)
    (state : xkb_compose_state) : Nat :=
  (nodeAt compose.tree state.context).ks

/-! ## Parser driver

The lexer is abstracted to a token stream: a List Tok, where reaching the
end of the list corresponds to END_OF_FILE (the scanner keeps returning
END_OF_FILE once at the end of the buffer). The include directive reads a
further token stream from a file-system parameter fs. The parser is the
goto state machine of parse in the source; the productions handed to
add_production are accumulated in order (folding add_production over that
list over the table yields the mutation the C code performs in place).
Fuel decreases at every step; any concrete run needs only finitely much. -/

inductive Tok where
  | endOfLine
  | includeTok
  | includeString (path : String)
  | lhsKeysym (k : Nat)
  | colon
  | stringTok (s : String)
  | rhsKeysym (k : Nat)
  | errorTok
deriving DecidableEq, Repr

inductive PState where
  | initial
  | includeSt
  | includeEol (path : String)
  | lhs
  | rhs
deriving DecidableEq, Repr

def MAX_LHS_LEN : Nat := 10
def MAX_INCLUDE_DEPTH : Nat := 5
def MAX_ERRORS : Nat := 10

/-- The production record as reset on entry to the initial state. The
source resets len and the two flags; the string and keysym fields are
only read under their flags, so resetting them as well is observationally
identical. -/
def Production.empty : Production :=
  { lhs := [], keysym := 0, string := "", has_keysym := false, has_string := false }

/-- The tail of the skip loop: after the offending token, keep lexing
until an END_OF_LINE is consumed or the end of file is reached. -/
def skip_rest : List Tok → List Tok
  | [] => []
  | Tok.endOfLine :: rest => rest
  | _ :: rest => skip_rest rest

/-- The skip recovery of parse, entered with the offending token tok and
the remaining stream: the loop while (tok != EOL and tok != EOF) lexes;
if tok is already an END_OF_LINE nothing further is consumed. -/
def skip_to_eol (tok : Tok) (rest : List Tok) : List Tok :=
  match tok with
  | Tok.endOfLine => rest
  | _ => skip_rest rest

mutual

/-- Embedding of parse: the seven-label goto machine over the token
stream. Arguments: file system, fuel, include_depth, num_errors, current
label, production under construction, remaining tokens, productions added
so far. Returns the success flag of parse and the add_production calls. -/
def parse (fs : String → Option (List Tok)) :
    Nat → Nat → Nat → PState → Production → List Tok → List Production →
    Bool × List Production
  | 0, _, _, _, _, _, acc => (false, acc)
  | fuel + 1, depth, nerr, st, prod, toks, acc =>
    match st, toks with
    | .initial, [] => (true, acc)
    | .initial, t :: rest =>
      match t with
      | .endOfLine => parse fs fuel depth nerr .initial Production.empty rest acc
      | .includeTok => parse fs fuel depth nerr .includeSt prod rest acc
      | .lhsKeysym k =>
          parse fs fuel depth nerr .lhs { Production.empty with lhs := [k] } rest acc
      | t =>
          if nerr + 1 ≤ MAX_ERRORS then
            parse fs fuel depth (nerr + 1) .initial Production.empty (skip_to_eol t rest) acc
          else (false, acc)
    | .includeSt, [] =>
          if nerr + 1 ≤ MAX_ERRORS then
            parse fs fuel depth (nerr + 1) .initial Production.empty [] acc
          else (false, acc)
    | .includeSt, t :: rest =>
      match t with
      | .includeString path => parse fs fuel depth nerr (.includeEol path) prod rest acc
      | t =>
          if nerr + 1 ≤ MAX_ERRORS then
            parse fs fuel depth (nerr + 1) .initial Production.empty (skip_to_eol t rest) acc
          else (false, acc)
    | .includeEol _, [] =>
          if nerr + 1 ≤ MAX_ERRORS then
            parse fs fuel depth (nerr + 1) .initial Production.empty [] acc
          else (false, acc)
    | .includeEol path, t :: rest =>
      match t with
      | .endOfLine =>
          let r := do_include fs fuel depth path acc
          if r.1 then parse fs fuel depth nerr .initial Production.empty rest r.2
          else (false, r.2)
      | t =>
          if nerr + 1 ≤ MAX_ERRORS then
            parse fs fuel depth (nerr + 1) .initial Production.empty (skip_to_eol t rest) acc
          else (false, acc)
    | .lhs, [] =>
          if nerr + 1 ≤ MAX_ERRORS then
            parse fs fuel depth (nerr + 1) .initial Production.empty [] acc
          else (false, acc)
    | .lhs, t :: rest =>
      match t with
      | .lhsKeysym k =>
          if prod.lhs.length + 1 > MAX_LHS_LEN then
            parse fs fuel depth nerr .initial Production.empty (skip_to_eol (.lhsKeysym k) rest) acc
          else parse fs fuel depth nerr .lhs { prod with lhs := prod.lhs ++ [k] } rest acc
      | .colon =>
          if prod.lhs.length = 0 then
            parse fs fuel depth nerr .initial Production.empty (skip_to_eol .colon rest) acc
          else parse fs fuel depth nerr .rhs prod rest acc
      | t =>
          if nerr + 1 ≤ MAX_ERRORS then
            parse fs fuel depth (nerr + 1) .initial Production.empty (skip_to_eol t rest) acc
          else (false, acc)
    | .rhs, [] =>
          if nerr + 1 ≤ MAX_ERRORS then
            parse fs fuel depth (nerr + 1) .initial Production.empty [] acc
          else (false, acc)
    | .rhs, t :: rest =>
      match t with
      | .stringTok s =>
          if prod.has_string then
            parse fs fuel depth nerr .initial Production.empty (skip_to_eol (.stringTok s) rest) acc
          else if s = "" then
            parse fs fuel depth nerr .initial Production.empty (skip_to_eol (.stringTok s) rest) acc
          else if s.utf8ByteSize ≥ 256 then
            parse fs fuel depth nerr .initial Production.empty (skip_to_eol (.stringTok s) rest) acc
          else parse fs fuel depth nerr .rhs { prod with string := s, has_string := true } rest acc
      | .rhsKeysym k =>
          if prod.has_keysym then
            parse fs fuel depth nerr .initial Production.empty (skip_to_eol (.rhsKeysym k) rest) acc
          else
            parse fs fuel depth nerr .initial Production.empty rest
              (acc ++ [{ prod with keysym := k, has_keysym := true }])
      | .endOfLine =>
          if prod.has_string = false ∧ prod.has_keysym = false then
            parse fs fuel depth nerr .initial Production.empty rest acc
          else parse fs fuel depth nerr .initial Production.empty rest (acc ++ [prod])
      | t =>
          if nerr + 1 ≤ MAX_ERRORS then
            parse fs fuel depth (nerr + 1) .initial Production.empty (skip_to_eol t rest) acc
          else (false, acc)

/-- Embedding of do_include. The guard rejects include_depth of
MAX_INCLUDE_DEPTH or more; an unreadable file fails; otherwise the
included stream is parsed recursively. The recursive parse receives
include_depth unchanged, because the source passes the value of the
post-increment expression, which is the old depth. -/
def do_include (fs : String → Option (List Tok)) :
    Nat → Nat → String → List Production → Bool × List Production
  | 0, _, _, acc => (false, acc)
  | fuel + 1, include_depth, path, acc =>
    if include_depth ≥ MAX_INCLUDE_DEPTH then (false, acc)
    else
      match fs path with
      | none => (false, acc)
      | some toks => parse fs fuel include_depth 0 .initial Production.empty toks acc

end

/-- Embedding of parse_string, the top-level entry point used by
xkb_compose_new_from_file and xkb_compose_new_from_buffer: a fresh parse
at include depth 0 with no errors. -/
def parse_string (fs : String → Option (List Tok)) (fuel : Nat)
    (toks : List Tok) : Bool × List Production :=
  parse fs fuel 0 0 .initial Production.empty toks []

/-- The token classes that hit the default (unexpected) branch of each
parser label. -/
def is_unexpected : PState → Tok → Bool
  | .initial, .endOfLine => false
  | .initial, .includeTok => false
  | .initial, .lhsKeysym _ => false
  | .initial, _ => true
  | .includeSt, .includeString _ => false
  | .includeSt, _ => true
  | .includeEol _, .endOfLine => false
  | .includeEol _, _ => true
  | .lhs, .lhsKeysym _ => false
  | .lhs, .colon => false
  | .lhs, _ => true
  | .rhs, .stringTok _ => false
  | .rhs, .rhsKeysym _ => false
  | .rhs, .endOfLine => false
  | .rhs, _ => true

/-- A file system with no readable files, for runs without includes. -/
def fsEmpty : String → Option (List Tok) := fun _ => none

/-- A chain of include files: f1 includes f2, ... f5 includes f6, and f6
holds one ordinary production. Together with a top-level stream that
includes f1 this is an include chain six files deep. -/
def fsChain : String → Option (List Tok) := fun p =>
  if p = "f1" then some [Tok.includeTok, Tok.includeString "f2", Tok.endOfLine]
  else if p = "f2" then some [Tok.includeTok, Tok.includeString "f3", Tok.endOfLine]
  else if p = "f3" then some [Tok.includeTok, Tok.includeString "f4", Tok.endOfLine]
  else if p = "f4" then some [Tok.includeTok, Tok.includeString "f5", Tok.endOfLine]
  else if p = "f5" then some [Tok.includeTok, Tok.includeString "f6", Tok.endOfLine]
  else if p = "f6" then some [Tok.lhsKeysym 1, Tok.colon, Tok.rhsKeysym 2, Tok.endOfLine]
  else none

/-- Top-level stream that starts the six-deep include chain. -/
def chainTop : List Tok := [Tok.includeTok, Tok.includeString "f1", Tok.endOfLine]

/-- A stream of n lines each consisting of a lone colon, which is an
unexpected token in the initial state. -/
def badLines : Nat → List Tok
  | 0 => []
  | n + 1 => Tok.colon :: Tok.endOfLine :: badLines n

/-! ## Invariants of built tables -/

/-- Reachability along next links: the sibling chain of nodes reached by
following next from a starting index. -/
inductive Reach (tree : List Node) : Nat → Nat → Prop
  | refl (i : Nat) : Reach tree i i
  | tail {i j : Nat} : Reach tree i j → (nodeAt tree j).next ≠ 0 →
      Reach tree i ((nodeAt tree j).next)

/-- A sibling-chain head: the root, or the target of some successor link. -/
def IsHead (tree : List Node) (h : Nat) : Prop :=
  h = 0 ∨ (h ≠ 0 ∧ ∃ i, (nodeAt tree i).successor = h)

/-- Structural invariant of the node array, maintained by add_production:
the root is fixed apart from its next link, every link points forward and
in range, internal nodes carry no leaf payload, non-root nodes have real
keysyms, links are injective, successor targets are chain heads, and
keysyms along any sibling chain are pairwise distinct. -/
structure TreeInv (t : List Node) : Prop where
  nonempty : 0 < t.length
  root_keysym : (nodeAt t 0).keysym = 0
  root_successor : (nodeAt t 0).successor = 0
  root_utf8 : (nodeAt t 0).utf8 = 0
  root_ks : (nodeAt t 0).ks = 0
  next_bound : ∀ i, (nodeAt t i).next ≠ 0 →
      i < (nodeAt t i).next ∧ (nodeAt t i).next < t.length
  succ_bound : ∀ i, (nodeAt t i).successor ≠ 0 →
      i < (nodeAt t i).successor ∧ (nodeAt t i).successor < t.length
  internal_clear : ∀ i, (nodeAt t i).successor ≠ 0 →
      (nodeAt t i).utf8 = 0 ∧ (nodeAt t i).ks = 0
  keysym_ne : ∀ i, 0 < i → i < t.length → (nodeAt t i).keysym ≠ 0
  next_inj : ∀ i j, (nodeAt t i).next ≠ 0 → (nodeAt t i).next = (nodeAt t j).next → i = j
  succ_not_next : ∀ i j, (nodeAt t i).successor ≠ 0 →
      (nodeAt t i).successor ≠ (nodeAt t j).next
  distinct : ∀ h i j, IsHead t h → Reach t h i → Reach t h j →
      (nodeAt t i).keysym = (nodeAt t j).keysym → i = j

/-- Invariant of the whole table: tree invariant plus the blob sentinel
(offset 0 holds a NUL). -/
structure TableInv (c : xkb_compose) : Prop where
  tree : TreeInv c.tree
  blob_zero : c.utf8.head? = some (Char.ofNat 0)

/-! ## Concrete sample data used by witnesses and counterexamples -/

/-- One production with a single left-hand keysym 5 and replacement
keysym 7. -/
def prodOne : Production :=
  { lhs := [5], keysym := 7, string := "", has_keysym := true, has_string := false }

/-- The table after construction and one add_production of prodOne. -/
def tableOne : xkb_compose := add_production xkb_compose_new prodOne

/-- One production with two left-hand keysyms 5 and 6, so that the built
table holds one internal node and one leaf. -/
def prodTwo : Production :=
  { lhs := [5, 6], keysym := 7, string := "", has_keysym := true, has_string := false }

/-- The table after construction and one add_production of prodTwo. -/
def tableTwo : xkb_compose := add_production xkb_compose_new prodTwo

/-- Sample stand-in for the external xkb_keysym_to_utf8. -/
def sampleKsToUtf8 : Nat → Nat → Nat × String := fun k size => (k + size, "m")

/-- Input line whose right-hand keysym is followed by a colon rather than
an end of line. -/
def c2Input : List Tok :=
  [Tok.lhsKeysym 1, Tok.colon, Tok.rhsKeysym 2, Tok.colon, Tok.endOfLine]

/-! ## Basic lemmas about nodeAt -/

theorem nodeAt_out (t : List Node) (i : Nat) (h : t.length ≤ i) :
    nodeAt t i = Node.empty := by
  simp [nodeAt, List.getD_eq_getElem?_getD, List.getElem?_eq_none h]

theorem nodeAt_append_ne (t l2 : List Node) (i : Nat) (h : i ≠ t.length) :
    nodeAt (t ++ l2) i = nodeAt t i ∨ t.length < i := by
  rcases Nat.lt_trichotomy i t.length with hlt | heq | hgt
  · left
    simp [nodeAt, List.getD_eq_getElem?_getD, List.getElem?_append_left hlt]
  · exact absurd heq h
  · right; exact hgt

theorem nodeAt_append_lt (t l2 : List Node) (i : Nat) (h : i < t.length) :
    nodeAt (t ++ l2) i = nodeAt t i := by
  simp [nodeAt, List.getD_eq_getElem?_getD, List.getElem?_append_left h]

theorem nodeAt_append_len (t : List Node) (x : Node) :
    nodeAt (t ++ [x]) t.length = x := by
  simp [nodeAt, List.getD_eq_getElem?_getD, List.getElem?_append_right (Nat.le_refl t.length)]

theorem nodeAt_append_gt (t : List Node) (x : Node) (i : Nat) (h : t.length < i) :
    nodeAt (t ++ [x]) i = nodeAt t i := by
  rw [nodeAt_out (t ++ [x]) i, nodeAt_out t i (Nat.le_of_lt h)]
  simpa using h

theorem nodeAt_append_ne_len (t : List Node) (x : Node) (i : Nat) (h : i ≠ t.length) :
    nodeAt (t ++ [x]) i = nodeAt t i := by
  rcases Nat.lt_trichotomy i t.length with hlt | heq | hgt
  · exact nodeAt_append_lt t [x] i hlt
  · exact absurd heq h
  · exact nodeAt_append_gt t x i hgt

theorem nodeAt_set_self (t : List Node) (i : Nat) (v : Node) (h : i < t.length) :
    nodeAt (t.set i v) i = v := by
  simp [nodeAt, List.getD_eq_getElem?_getD, List.getElem?_set_self, h]

theorem nodeAt_set_ne (t : List Node) (i j : Nat) (v : Node) (h : j ≠ i) :
    nodeAt (t.set i v) j = nodeAt t j := by
  simp [nodeAt, List.getD_eq_getElem?_getD, List.getElem?_set_ne (fun hh => h hh.symm)]

/-! ## Claim C4: status characterization -/

/-- Claim C4: for every state machine over any table, get_status returns
CANCELLED iff context is 0 and the previous node has a successor, NOTHING
iff context is 0 and it has none, COMPOSING iff context is nonzero and the
current node has a successor, and COMPOSED iff context is nonzero and it
has none; the result depends only on the two indices and the two node
lookups. -/
theorem status_characterization (c : xkb_compose) (st : xkb_compose_state) :
    (xkb_compose_state_get_status c st = .cancelled ↔
      st.context = 0 ∧ (nodeAt c.tree st.prev_context).successor ≠ 0) ∧
    (xkb_compose_state_get_status c st = .nothing ↔
      st.context = 0 ∧ (nodeAt c.tree st.prev_context).successor = 0) ∧
    (xkb_compose_state_get_status c st = .composing ↔
      st.context ≠ 0 ∧ (nodeAt c.tree st.context).successor ≠ 0) ∧
    (xkb_compose_state_get_status c st = .composed ↔
      st.context ≠ 0 ∧ (nodeAt c.tree st.context).successor = 0) := by
  unfold xkb_compose_state_get_status
  by_cases h1 : st.context = 0 <;>
    by_cases h2 : (nodeAt c.tree st.prev_context).successor = 0 <;>
      by_cases h3 : (nodeAt c.tree st.context).successor = 0 <;>
        simp [h1, h2, h3]

/-! ## Claim C7: modifiers leave the state unchanged -/

/-- Claim C7: feeding a keysym classified as a modifier by the external
is_modifier leaves prev_context and context unchanged, hence also the
status. -/
theorem feed_modifier_frame (is_modifier : Nat → Bool) (c : xkb_compose)
    (st : xkb_compose_state) (k : Nat) (h : is_modifier k = true) :
    xkb_compose_state_feed is_modifier c st k = st ∧
    xkb_compose_state_get_status c (xkb_compose_state_feed is_modifier c st k) =
      xkb_compose_state_get_status c st := by
  unfold xkb_compose_state_feed
  rw [if_pos h]
  exact ⟨rfl, rfl⟩

theorem feed_modifier_frame_witness :
    xkb_compose_state_feed (fun n => n == 99) tableOne xkb_compose_state_new 99 =
      xkb_compose_state_new ∧
    xkb_compose_state_get_status tableOne
        (xkb_compose_state_feed (fun n => n == 99) tableOne xkb_compose_state_new 99) =
      xkb_compose_state_get_status tableOne xkb_compose_state_new :=
  feed_modifier_frame (fun n => n == 99) tableOne xkb_compose_state_new 99 (by decide)

/-! ## Claim C8: get_utf8 delegates or copies from the blob -/

/-- Claim C8: when the current node has utf8 = 0 and a nonzero replacement
keysym, get_utf8 delegates to the external keysym-to-utf8 conversion; in
every other case it copies the NUL-terminated string at offset utf8 of the
blob, returning the full length while storing at most size - 1 characters
of it. -/
theorem get_utf8_cases (f : Nat → Nat → Nat × String) (c : xkb_compose)
    (st : xkb_compose_state) (size : Nat) :
    ((nodeAt c.tree st.context).utf8 = 0 ∧ (nodeAt c.tree st.context).ks ≠ 0 →
      xkb_compose_state_get_utf8 f c st size = f (nodeAt c.tree st.context).ks size) ∧
    (¬((nodeAt c.tree st.context).utf8 = 0 ∧ (nodeAt c.tree st.context).ks ≠ 0) →
      (xkb_compose_state_get_utf8 f c st size).1 =
        (strFromBlob c.utf8 (nodeAt c.tree st.context).utf8).length ∧
      (xkb_compose_state_get_utf8 f c st size).2 =
        String.mk ((strFromBlob c.utf8 (nodeAt c.tree st.context).utf8).data.take (size - 1)) ∧
      (xkb_compose_state_get_utf8 f c st size).2.length ≤ size - 1) := by
  constructor
  · intro h
    unfold xkb_compose_state_get_utf8
    rw [if_pos h]
  · intro h
    unfold xkb_compose_state_get_utf8 snprintf_model
    rw [if_neg h]
    refine ⟨rfl, rfl, ?_⟩
    exact List.length_take_le _ _

theorem get_utf8_cases_witness :
    (xkb_compose_state_get_utf8 sampleKsToUtf8 tableOne { prev_context := 0, context := 1 } 4 =
      sampleKsToUtf8 7 4) ∧
    ((xkb_compose_state_get_utf8 sampleKsToUtf8 tableOne xkb_compose_state_new 4).1 = 0 ∧
      (xkb_compose_state_get_utf8 sampleKsToUtf8 tableOne xkb_compose_state_new 4).2 = "" ) :=
  ⟨(get_utf8_cases sampleKsToUtf8 tableOne { prev_context := 0, context := 1 } 4).1 (by decide),
   by
    have h := (get_utf8_cases sampleKsToUtf8 tableOne xkb_compose_state_new 4).2 (by decide)
    exact ⟨by rw [h.1]; decide, by rw [h.2.1]; decide⟩⟩

/-! ## Claim C1: include depth -/

/-- Claim C1 (code evaluated at the failing input): do_include does
reject a depth of 5 or more, but the recursive parse of an included file
receives the depth of its includer unchanged, because the source passes
the value of the post-increment expression include_depth++. As a result
the six-file include chain fsChain, which the depth-plus-one contract of
the specification would reject, parses successfully. -/
theorem include_chain_not_rejected :
    do_include fsChain 64 5 "f1" [] = (false, []) ∧
    parse_string fsChain 64 chainTop =
      (true, [{ lhs := [1], keysym := 2, string := "", has_keysym := true,
                has_string := false }]) := by
  constructor
  · decide
  · decide

/-! ## Claim C2: right-hand keysym falls through to add_production -/

/-- Claim C2 counterexample: in the rhs state a right-hand keysym is
followed here by a colon, not an end of line, yet the production is
added (and the run still succeeds, the colon being recovered from in the
initial state); the claim asserts that the production of that line would
not be added. -/
theorem rhs_keysym_counterexample :
    parse_string fsEmpty 16 c2Input =
      (true, [{ lhs := [1], keysym := 2, string := "", has_keysym := true,
                has_string := false }]) := by
  decide

/-- Claim C2 amended: after an RHS_KEYSYM token sets the keysym of the
production, the case falls through into the END_OF_LINE handling of the
same dispatch, so add_production is invoked immediately, whatever token
follows; the parser then continues in the initial state, where the next
token of the line is processed on its own. -/
theorem rhs_keysym_adds_immediately (fs : String → Option (List Tok))
    (fuel depth nerr : Nat) (prod : Production) (k : Nat) (rest : List Tok)
    (acc : List Production) (h : prod.has_keysym = false) :
    parse fs (fuel + 1) depth nerr .rhs prod (Tok.rhsKeysym k :: rest) acc =
      parse fs fuel depth nerr .initial Production.empty rest
        (acc ++ [{ prod with keysym := k, has_keysym := true }]) := by
  simp [parse, h]

theorem rhs_keysym_adds_immediately_witness :
    parse fsEmpty 4 0 0 .rhs { Production.empty with lhs := [1] }
        [Tok.rhsKeysym 2, Tok.colon] [] =
      parse fsEmpty 3 0 0 .initial Production.empty [Tok.colon]
        [{ lhs := [1], keysym := 2, string := "", has_keysym := true,
           has_string := false }] :=
  rhs_keysym_adds_immediately fsEmpty 3 0 0 { Production.empty with lhs := [1] }
    2 [Tok.colon] [] rfl

/-! ## Claim C5: unexpected tokens, recovery, and the error limit -/

/-- Claim C5: an unexpected token is counted; while the count stays within
MAX_ERRORS the parser recovers by skipping to the next end of line or end
of file and resuming in the initial state, and once the incremented count
exceeds MAX_ERRORS the whole parse aborts with failure. A file of ten bad
lines stays within the limit and parses to completion; an eleventh bad
line makes the top-level entry point report failure. -/
theorem unexpected_recovery_and_limit :
    (∀ (fs : String → Option (List Tok)) (fuel depth nerr : Nat) (st : PState)
       (prod : Production) (t : Tok) (rest : List Tok) (acc : List Production),
       is_unexpected st t = true → nerr + 1 ≤ MAX_ERRORS →
       parse fs (fuel + 1) depth nerr st prod (t :: rest) acc =
         parse fs fuel depth (nerr + 1) .initial Production.empty (skip_to_eol t rest) acc) ∧
    (∀ (fs : String → Option (List Tok)) (fuel depth nerr : Nat) (st : PState)
       (prod : Production) (t : Tok) (rest : List Tok) (acc : List Production),
       is_unexpected st t = true → MAX_ERRORS < nerr + 1 →
       parse fs (fuel + 1) depth nerr st prod (t :: rest) acc = (false, acc)) ∧
    parse_string fsEmpty 64 (badLines 10) = (true, []) ∧
    parse_string fsEmpty 64 (badLines 11) = (false, []) := by
  refine ⟨?_, ?_, by decide, by decide⟩
  · intro fs fuel depth nerr st prod t rest acc hu hle
    cases st <;> cases t <;> simp_all [parse, is_unexpected]
  · intro fs fuel depth nerr st prod t rest acc hu hgt
    have hle : ¬(nerr + 1 ≤ MAX_ERRORS) := Nat.not_le_of_lt hgt
    cases st <;> cases t <;> simp_all [parse, is_unexpected]

theorem unexpected_recovery_and_limit_witness :
    (parse fsEmpty 3 0 0 .lhs Production.empty [Tok.stringTok "x"] [] =
      parse fsEmpty 2 0 1 .initial Production.empty [] []) ∧
    parse fsEmpty 3 0 10 .lhs Production.empty [Tok.stringTok "x"] [] = (false, []) :=
  ⟨unexpected_recovery_and_limit.1 fsEmpty 2 0 0 .lhs Production.empty
      (Tok.stringTok "x") [] [] (by decide) (by decide),
   unexpected_recovery_and_limit.2.1 fsEmpty 2 0 10 .lhs Production.empty
      (Tok.stringTok "x") [] [] (by decide) (by decide)⟩

/-! ## Lemmas about sibling chains -/

theorem Reach.trans {t : List Node} {i j l : Nat} (h1 : Reach t i j)
    (h2 : Reach t j l) : Reach t i l := by
  induction h2 with
  | refl => exact h1
  | tail _ hnz ih => exact Reach.tail ih hnz

theorem reach_step {t : List Node} {i : Nat} (h : (nodeAt t i).next ≠ 0) :
    Reach t i ((nodeAt t i).next) :=
  Reach.tail (Reach.refl i) h

theorem reach_le {t : List Node}
    (hb : ∀ x, (nodeAt t x).next ≠ 0 → x < (nodeAt t x).next ∧ (nodeAt t x).next < t.length)
    {i j : Nat} (h : Reach t i j) : i ≤ j := by
  induction h with
  | refl => exact Nat.le_refl _
  | tail _ hnz ih => exact Nat.le_of_lt (Nat.lt_of_le_of_lt ih (hb _ hnz).1)

theorem reach_lt_len {t : List Node}
    (hb : ∀ x, (nodeAt t x).next ≠ 0 → x < (nodeAt t x).next ∧ (nodeAt t x).next < t.length)
    {i j : Nat} (hi : i < t.length) (h : Reach t i j) : j < t.length := by
  induction h with
  | refl => exact hi
  | tail _ hnz _ => exact (hb _ hnz).2

theorem reach_next0 {t : List Node} {i j : Nat} (h : Reach t i j)
    (h0 : (nodeAt t i).next = 0) : j = i := by
  induction h with
  | refl => rfl
  | tail _ hnz ih =>
    rename_i j' _
    have hj : j' = i := ih
    rw [hj] at hnz
    exact absurd h0 hnz

theorem reach_split {t : List Node} {i x : Nat} (h : Reach t i x) :
    x = i ∨ ((nodeAt t i).next ≠ 0 ∧ Reach t ((nodeAt t i).next) x) := by
  induction h with
  | refl => exact Or.inl rfl
  | tail _ hnz ih =>
    rename_i j _
    rcases ih with hji | ⟨hnz0, hr⟩
    · subst hji
      exact Or.inr ⟨hnz, Reach.refl _⟩
    · exact Or.inr ⟨hnz0, Reach.tail hr hnz⟩

theorem reach_to_next {t : List Node}
    (hinj : ∀ i j, (nodeAt t i).next ≠ 0 → (nodeAt t i).next = (nodeAt t j).next → i = j)
    {a x : Nat} (h : Reach t a x) :
    ∀ j, (nodeAt t j).next ≠ 0 → x = (nodeAt t j).next → a = x ∨ Reach t a j := by
  induction h with
  | refl => intro j hj hx; exact Or.inl rfl
  | tail h' hnz' _ =>
    rename_i j' _
    intro j hj hx
    have hjj : j' = j := hinj j' j hnz' hx
    subst hjj
    exact Or.inr h'

/-- A chain head has no incoming next link. -/
theorem head_no_next_in {t : List Node} (ht : TreeInv t) {h : Nat}
    (hh : IsHead t h) : ∀ j, (nodeAt t j).next ≠ 0 → (nodeAt t j).next ≠ h := by
  intro j hj hcontra
  rcases hh with h0 | ⟨hne, i, hsucc⟩
  · rw [h0] at hcontra
    exact hj hcontra
  · have hs : (nodeAt t i).successor ≠ 0 := by rw [hsucc]; exact hne
    exact ht.succ_not_next i j hs (by rw [hsucc, hcontra])

/-- If a chain reaches a head, it started there. -/
theorem reach_head_eq {t : List Node} (ht : TreeInv t) {x y : Nat}
    (h : Reach t x y) (hy : IsHead t y) : x = y := by
  induction h with
  | refl => rfl
  | tail _ hnz _ => exact absurd rfl (head_no_next_in ht hy _ hnz)

/-- Chains from two heads meeting in a common node have the same head. -/
theorem head_chains_disjoint {t : List Node} (ht : TreeInv t) {a b x : Nat}
    (ha : IsHead t a) (hb : IsHead t b) (hx : Reach t a x) (hy : Reach t b x) :
    a = b := by
  induction hy with
  | refl => exact reach_head_eq ht hx hb
  | tail hy' hnz ih =>
    rename_i j
    rcases reach_to_next ht.next_inj hx j hnz rfl with hax | hr
    · exact absurd hax.symm (head_no_next_in ht ha j hnz)
    · exact ih hr

/-- Chains are insensitive to changes that leave every next field alone. -/
theorem reach_congr {t t' : List Node}
    (hn : ∀ i, (nodeAt t' i).next = (nodeAt t i).next) {h x : Nat} :
    Reach t' h x ↔ Reach t h x := by
  constructor
  · intro hr
    induction hr with
    | refl => exact Reach.refl _
    | tail _ hnz ih =>
      rename_i j _
      rw [hn j] at hnz ⊢
      exact Reach.tail ih hnz
  · intro hr
    induction hr with
    | refl => exact Reach.refl _
    | tail _ hnz ih =>
      rename_i j _
      rw [← hn j] at hnz ⊢
      exact Reach.tail ih hnz

/-- Heads are insensitive to changes that leave every successor field
alone. -/
theorem isHead_congr {t t' : List Node}
    (hs : ∀ i, (nodeAt t' i).successor = (nodeAt t i).successor) {h : Nat} :
    IsHead t' h ↔ IsHead t h := by
  unfold IsHead
  simp only [hs]

/-! ## Behaviour of find_or_add -/

/-- With fuel at least the distance to the end of the array, find_or_add
either finds the keysym somewhere on the chain from curr without touching
the tree, or walks to the chain end, sees the keysym nowhere on the chain,
and appends a fresh node linked from the chain end. -/
theorem find_or_add_spec (t : List Node) (k : Nat) (ht : TreeInv t) :
    ∀ (fuel curr : Nat), curr < t.length → t.length - curr ≤ fuel →
    (∃ idx, find_or_add t fuel curr k = (t, idx) ∧ Reach t curr idx ∧
      (nodeAt t idx).keysym = k) ∨
    (∃ last, Reach t curr last ∧ (nodeAt t last).next = 0 ∧
      (∀ x, Reach t curr x → (nodeAt t x).keysym ≠ k) ∧
      find_or_add t fuel curr k =
        ((t ++ [({ keysym := k, next := 0, successor := 0, utf8 := 0, ks := 0 } : Node)]).set last
          { nodeAt t last with next := t.length }, t.length)) := by
  intro fuel
  induction fuel with
  | zero =>
    intro curr hc hf
    exact absurd hc (Nat.not_lt.mpr (by omega))
  | succ fuel ih =>
    intro curr hc hf
    by_cases hk : (nodeAt t curr).keysym = k
    · exact Or.inl ⟨curr, by simp [find_or_add, hk], Reach.refl _, hk⟩
    · by_cases hnz : (nodeAt t curr).next = 0
      · right
        refine ⟨curr, Reach.refl _, hnz, ?_, ?_⟩
        · intro x hx
          rw [reach_next0 hx hnz]
          exact hk
        · simp [find_or_add, hk, hnz, add_node]
      · have hb := ht.next_bound curr hnz
        have hstep : find_or_add t (fuel + 1) curr k =
            find_or_add t fuel ((nodeAt t curr).next) k := by
          simp [find_or_add, hk, hnz]
        have hlt : t.length - (nodeAt t curr).next ≤ fuel := by omega
        rcases ih (nodeAt t curr).next hb.2 hlt with
          ⟨idx, heq, hr, hks⟩ | ⟨last, hr, h0, habs, heq⟩
        · exact Or.inl ⟨idx, by rw [hstep]; exact heq,
            Reach.trans (reach_step hnz) hr, hks⟩
        · right
          refine ⟨last, Reach.trans (reach_step hnz) hr, h0, ?_, by rw [hstep]; exact heq⟩
          intro x hx
          rcases reach_split hx with hxc | ⟨_, hr2⟩
          · rw [hxc]; exact hk
          · exact habs x hr2

/-! ## Preservation of the tree invariant -/

/-- Appending a fresh node for an unseen keysym at the end of the chain of
a head preserves the tree invariant. -/
theorem link_append_treeInv {t : List Node} {curr last k : Nat} (ht : TreeInv t)
    (hhead : IsHead t curr) (hc : curr < t.length) (hk : k ≠ 0)
    (hrl : Reach t curr last) (h0 : (nodeAt t last).next = 0)
    (habs : ∀ x, Reach t curr x → (nodeAt t x).keysym ≠ k) :
    TreeInv ((t ++ [({ keysym := k, next := 0, successor := 0, utf8 := 0, ks := 0 } : Node)]).set
      last { nodeAt t last with next := t.length }) := by
  have hlast : last < t.length := reach_lt_len ht.next_bound hc hrl
  have hNpos : 0 < t.length := ht.nonempty
  set f : Node := { keysym := k, next := 0, successor := 0, utf8 := 0, ks := 0 } with hfdef
  set v : Node := { nodeAt t last with next := t.length } with hvdef
  set t' : List Node := (t ++ [f]).set last v with htdef
  have hemptyN : nodeAt t t.length = Node.empty := nodeAt_out t t.length (Nat.le_refl _)
  have hlen : t'.length = t.length + 1 := by
    rw [htdef, List.length_set, List.length_append, List.length_singleton]
  have hP1 : ∀ i, i ≠ last → i ≠ t.length → nodeAt t' i = nodeAt t i := by
    intro i h1 h2
    rw [htdef, nodeAt_set_ne _ _ _ _ h1, nodeAt_append_ne_len _ _ _ h2]
  have hP2 : nodeAt t' last = v := by
    rw [htdef]
    exact nodeAt_set_self _ _ _ (by rw [List.length_append, List.length_singleton]; omega)
  have hP3 : nodeAt t' t.length = f := by
    rw [htdef, nodeAt_set_ne _ _ _ _ (Nat.ne_of_gt hlast), nodeAt_append_len]
  have hnext : ∀ i, (nodeAt t' i).next = if i = last then t.length else (nodeAt t i).next := by
    intro i
    by_cases h1 : i = last
    · subst h1; rw [hP2, if_pos rfl, hvdef]
    · rw [if_neg h1]
      by_cases h2 : i = t.length
      · subst h2; rw [hP3, hemptyN, hfdef]; rfl
      · rw [hP1 i h1 h2]
  have hsucc : ∀ i, (nodeAt t' i).successor = (nodeAt t i).successor := by
    intro i
    by_cases h1 : i = last
    · subst h1; rw [hP2, hvdef]
    · by_cases h2 : i = t.length
      · subst h2; rw [hP3, hemptyN, hfdef]; rfl
      · rw [hP1 i h1 h2]
  have hkey2 : ∀ i, i ≠ t.length → (nodeAt t' i).keysym = (nodeAt t i).keysym := by
    intro i h2
    by_cases h1 : i = last
    · subst h1; rw [hP2, hvdef]
    · rw [hP1 i h1 h2]
  have hleafeq : ∀ i, i ≠ t.length →
      (nodeAt t' i).utf8 = (nodeAt t i).utf8 ∧ (nodeAt t' i).ks = (nodeAt t i).ks := by
    intro i h2
    by_cases h1 : i = last
    · subst h1; rw [hP2, hvdef]; exact ⟨rfl, rfl⟩
    · rw [hP1 i h1 h2]; exact ⟨rfl, rfl⟩
  have hroot_ne : (0 : Nat) ≠ t.length := Nat.ne_of_lt hNpos
  have hheads : ∀ h, IsHead t' h ↔ IsHead t h := fun _ => isHead_congr hsucc
  have hheadlt : ∀ h, IsHead t h → h < t.length := by
    intro h hh
    rcases hh with h0 | ⟨hne, i, hs⟩
    · rw [h0]; exact hNpos
    · exact hs ▸ (ht.succ_bound i (by rw [hs]; exact hne)).2
  have hreach : ∀ h x, Reach t' h x →
      Reach t h x ∨ (x = t.length ∧ Reach t h last) := by
    intro h x hr
    induction hr with
    | refl => exact Or.inl (Reach.refl _)
    | tail hr' hnz ih =>
      rename_i j
      rcases ih with hj | ⟨hjN, _⟩
      · by_cases hjl : j = last
        · refine Or.inr ⟨?_, ?_⟩
          · rw [hnext j, if_pos hjl]
          · rw [← hjl]; exact hj
        · rw [hnext j, if_neg hjl] at hnz ⊢
          exact Or.inl (Reach.tail hj hnz)
      · exfalso
        rw [hnext j] at hnz
        by_cases hjl : j = last
        · rw [hjl] at hjN
          exact absurd hjN (Nat.ne_of_lt hlast)
        · rw [if_neg hjl, hjN, hemptyN] at hnz
          exact hnz rfl
  constructor
  · rw [hlen]; omega
  · rw [hkey2 0 hroot_ne]; exact ht.root_keysym
  · rw [hsucc 0]; exact ht.root_successor
  · exact (hleafeq 0 hroot_ne).1 ▸ ht.root_utf8
  · exact (hleafeq 0 hroot_ne).2 ▸ ht.root_ks
  · -- next_bound
    intro i hne
    rw [hnext i] at hne ⊢
    rw [hlen]
    by_cases h1 : i = last
    · rw [if_pos h1] at hne ⊢
      omega
    · rw [if_neg h1] at hne ⊢
      have := ht.next_bound i hne
      omega
  · -- succ_bound
    intro i hne
    rw [hsucc i] at hne ⊢
    rw [hlen]
    have := ht.succ_bound i hne
    omega
  · -- internal_clear
    intro i hne
    rw [hsucc i] at hne
    have hiN : i ≠ t.length := by
      intro hcon
      rw [hcon, hemptyN] at hne
      exact hne rfl
    rw [(hleafeq i hiN).1, (hleafeq i hiN).2]
    exact ht.internal_clear i hne
  · -- keysym_ne
    intro i h0i hiL
    by_cases h2 : i = t.length
    · rw [h2, hP3, hfdef]; exact hk
    · rw [hkey2 i h2]
      rw [hlen] at hiL
      exact ht.keysym_ne i h0i (by omega)
  · -- next_inj
    intro i j hne heq
    rw [hnext i] at hne heq
    rw [hnext j] at heq
    by_cases h1 : i = last <;> by_cases h2 : j = last
    · rw [h1, h2]
    · rw [if_pos h1] at heq
      rw [if_neg h2] at heq
      by_cases hjz : (nodeAt t j).next = 0
      · rw [hjz] at heq; omega
      · have := ht.next_bound j hjz; omega
    · rw [if_neg h1] at hne heq
      rw [if_pos h2] at heq
      have := ht.next_bound i hne; omega
    · rw [if_neg h1] at hne heq
      rw [if_neg h2] at heq
      exact ht.next_inj i j hne heq
  · -- succ_not_next
    intro i j hne
    rw [hsucc i] at hne ⊢
    rw [hnext j]
    have hblt := (ht.succ_bound i hne).2
    by_cases h2 : j = last
    · rw [if_pos h2]; omega
    · rw [if_neg h2]; exact ht.succ_not_next i j hne
  · -- distinct
    intro h i j hh hi hj hkeq
    have hh' : IsHead t h := (hheads h).mp hh
    have hhN : h < t.length := hheadlt h hh'
    rcases hreach h i hi with hio | ⟨hiN, hil⟩ <;>
      rcases hreach h j hj with hjo | ⟨hjN, hjl⟩
    · have hiL : i < t.length := reach_lt_len ht.next_bound hhN hio
      have hjL : j < t.length := reach_lt_len ht.next_bound hhN hjo
      rw [hkey2 i (Nat.ne_of_lt hiL), hkey2 j (Nat.ne_of_lt hjL)] at hkeq
      exact ht.distinct h i j hh' hio hjo hkeq
    · exfalso
      have hcurr_eq : h = curr := head_chains_disjoint ht hh' hhead hjl hrl
      subst hcurr_eq
      have hiL : i < t.length := reach_lt_len ht.next_bound hhN hio
      rw [hkey2 i (Nat.ne_of_lt hiL), hjN, hP3, hfdef] at hkeq
      exact habs i hio hkeq
    · exfalso
      have hcurr_eq : h = curr := head_chains_disjoint ht hh' hhead hil hrl
      subst hcurr_eq
      have hjL : j < t.length := reach_lt_len ht.next_bound hhN hjo
      rw [hkey2 j (Nat.ne_of_lt hjL), hiN, hP3, hfdef] at hkeq
      exact habs j hjo hkeq.symm
    · rw [hiN, hjN]

/-- find_or_add from a chain head preserves the invariant and returns an
in-range node carrying the searched keysym. -/
theorem find_or_add_inv {t : List Node} {curr k : Nat} (ht : TreeInv t)
    (hhead : IsHead t curr) (hc : curr < t.length) (hk : k ≠ 0) :
    TreeInv (find_or_add t t.length curr k).1 ∧
    (find_or_add t t.length curr k).2 < (find_or_add t t.length curr k).1.length ∧
    (nodeAt (find_or_add t t.length curr k).1 (find_or_add t t.length curr k).2).keysym = k := by
  rcases find_or_add_spec t k ht t.length curr hc (Nat.sub_le _ _) with
    ⟨idx, heq, hr, hks⟩ | ⟨last, hr, h0, habs, heq⟩
  · rw [heq]
    exact ⟨ht, reach_lt_len ht.next_bound hc hr, hks⟩
  · rw [heq]
    have hlast : last < t.length := reach_lt_len ht.next_bound hc hr
    refine ⟨link_append_treeInv ht hhead hc hk hr h0 habs, ?_, ?_⟩
    · rw [List.length_set, List.length_append, List.length_singleton]
      omega
    · rw [nodeAt_set_ne _ _ _ _ (Nat.ne_of_gt hlast), nodeAt_append_len]

/-- descend_or_add at a non-root node preserves the invariant and moves to
an in-range chain head. -/
theorem descend_or_add_inv {t : List Node} {idx k2 : Nat} (ht : TreeInv t)
    (hidx : idx < t.length) (hkey : (nodeAt t idx).keysym ≠ 0) (hk2 : k2 ≠ 0) :
    TreeInv (descend_or_add t idx k2).1 ∧
    (descend_or_add t idx k2).2 < (descend_or_add t idx k2).1.length ∧
    IsHead (descend_or_add t idx k2).1 (descend_or_add t idx k2).2 := by
  have hid0 : idx ≠ 0 := by
    intro hcon
    rw [hcon] at hkey
    exact hkey ht.root_keysym
  have hNpos : 0 < t.length := ht.nonempty
  by_cases hs : (nodeAt t idx).successor ≠ 0
  · have heq : descend_or_add t idx k2 = (t, (nodeAt t idx).successor) := by
      simp [descend_or_add, hs]
    rw [heq]
    exact ⟨ht, (ht.succ_bound idx hs).2, Or.inr ⟨hs, idx, rfl⟩⟩
  · push_neg at hs
    set f : Node := { keysym := k2, next := 0, successor := 0, utf8 := 0, ks := 0 } with hfdef
    set v : Node :=
      { nodeAt t idx with utf8 := 0, ks := 0, successor := t.length } with hvdef
    have heq : descend_or_add t idx k2 = ((t ++ [f]).set idx v, t.length) := by
      simp [descend_or_add, hs, add_node, hfdef, hvdef]
    rw [heq]
    set t' : List Node := (t ++ [f]).set idx v with htdef
    have hemptyN : nodeAt t t.length = Node.empty := nodeAt_out t t.length (Nat.le_refl _)
    have hlen : t'.length = t.length + 1 := by
      rw [htdef, List.length_set, List.length_append, List.length_singleton]
    have hP1 : ∀ i, i ≠ idx → i ≠ t.length → nodeAt t' i = nodeAt t i := by
      intro i h1 h2
      rw [htdef, nodeAt_set_ne _ _ _ _ h1, nodeAt_append_ne_len _ _ _ h2]
    have hP2 : nodeAt t' idx = v := by
      rw [htdef]
      exact nodeAt_set_self _ _ _ (by rw [List.length_append, List.length_singleton]; omega)
    have hP3 : nodeAt t' t.length = f := by
      rw [htdef, nodeAt_set_ne _ _ _ _ (Nat.ne_of_gt hidx), nodeAt_append_len]
    have hnext : ∀ i, (nodeAt t' i).next = (nodeAt t i).next := by
      intro i
      by_cases h1 : i = idx
      · subst h1; rw [hP2, hvdef]
      · by_cases h2 : i = t.length
        · subst h2; rw [hP3, hemptyN, hfdef]; rfl
        · rw [hP1 i h1 h2]
    have hsucc : ∀ i, (nodeAt t' i).successor =
        if i = idx then t.length else (nodeAt t i).successor := by
      intro i
      by_cases h1 : i = idx
      · subst h1; rw [hP2, if_pos rfl, hvdef]
      · rw [if_neg h1]
        by_cases h2 : i = t.length
        · subst h2; rw [hP3, hemptyN, hfdef]; rfl
        · rw [hP1 i h1 h2]
    have hkey2 : ∀ i, i ≠ t.length → (nodeAt t' i).keysym = (nodeAt t i).keysym := by
      intro i h2
      by_cases h1 : i = idx
      · subst h1; rw [hP2, hvdef]
      · rw [hP1 i h1 h2]
    have hheadlt : ∀ h, IsHead t h → h < t.length := by
      intro h hh
      rcases hh with h0 | ⟨hne, i, hsw⟩
      · rw [h0]; exact hNpos
      · exact hsw ▸ (ht.succ_bound i (by rw [hsw]; exact hne)).2
    refine ⟨?_, ?_, ?_⟩
    · constructor
      · rw [hlen]; omega
      · rw [hkey2 0 (Nat.ne_of_lt hNpos)]; exact ht.root_keysym
      · rw [hsucc 0, if_neg (fun hcon => hid0 hcon.symm)]; exact ht.root_successor
      · have h1 : (0 : Nat) ≠ idx := fun hcon => hid0 hcon.symm
        rw [hP1 0 h1 (Nat.ne_of_lt hNpos)]; exact ht.root_utf8
      · have h1 : (0 : Nat) ≠ idx := fun hcon => hid0 hcon.symm
        rw [hP1 0 h1 (Nat.ne_of_lt hNpos)]; exact ht.root_ks
      · -- next_bound
        intro i hne
        rw [hnext i] at hne ⊢
        rw [hlen]
        have := ht.next_bound i hne
        omega
      · -- succ_bound
        intro i hne
        rw [hsucc i] at hne ⊢
        rw [hlen]
        by_cases h1 : i = idx
        · rw [if_pos h1] at hne ⊢
          omega
        · rw [if_neg h1] at hne ⊢
          have := ht.succ_bound i hne
          omega
      · -- internal_clear
        intro i hne
        by_cases h1 : i = idx
        · subst h1; rw [hP2, hvdef]; exact ⟨rfl, rfl⟩
        · rw [hsucc i, if_neg h1] at hne
          have hiN : i ≠ t.length := by
            intro hcon
            rw [hcon, hemptyN] at hne
            exact hne rfl
          rw [hP1 i h1 hiN]
          exact ht.internal_clear i hne
      · -- keysym_ne
        intro i h0i hiL
        by_cases h2 : i = t.length
        · rw [h2, hP3, hfdef]; exact hk2
        · rw [hkey2 i h2]
          rw [hlen] at hiL
          exact ht.keysym_ne i h0i (by omega)
      · -- next_inj
        intro i j hne hne2
        rw [hnext i] at hne hne2
        rw [hnext j] at hne2
        exact ht.next_inj i j hne hne2
      · -- succ_not_next
        intro i j hne
        rw [hsucc i] at hne ⊢
        rw [hnext j]
        by_cases h1 : i = idx
        · rw [if_pos h1] at hne ⊢
          intro hcon
          by_cases hjz : (nodeAt t j).next = 0
          · omega
          · have := ht.next_bound j hjz; omega
        · rw [if_neg h1] at hne ⊢
          exact ht.succ_not_next i j hne
      · -- distinct
        intro h i j hh hi hj hkeq
        have hi' : Reach t h i := (reach_congr hnext).mp hi
        have hj' : Reach t h j := (reach_congr hnext).mp hj
        have hold : IsHead t h ∨ h = t.length := by
          rcases hh with h0 | ⟨hne, w, hsw⟩
          · exact Or.inl (Or.inl h0)
          · rw [hsucc w] at hsw
            by_cases hw : w = idx
            · rw [if_pos hw] at hsw
              exact Or.inr hsw.symm
            · rw [if_neg hw] at hsw
              exact Or.inl (Or.inr ⟨hne, w, hsw⟩)
        rcases hold with hold | hN
        · have hhN : h < t.length := hheadlt h hold
          have hiL : i < t.length := reach_lt_len ht.next_bound hhN hi'
          have hjL : j < t.length := reach_lt_len ht.next_bound hhN hj'
          rw [hkey2 i (Nat.ne_of_lt hiL), hkey2 j (Nat.ne_of_lt hjL)] at hkeq
          exact ht.distinct h i j hold hi' hj' hkeq
        · subst hN
          have hi0 : i = t.length := reach_next0 hi' (by rw [hemptyN]; rfl)
          have hj0 : j = t.length := reach_next0 hj' (by rw [hemptyN]; rfl)
          rw [hi0, hj0]
    · rw [hlen]; omega
    · exact Or.inr ⟨by omega, idx, by rw [hsucc idx, if_pos rfl]⟩

/-- The tree invariant transfers across any rewrite of the array that
keeps length, keysym, next and successor pointwise, keeps the payload of
the root, and leaves internal nodes without payload. -/
theorem treeInv_transfer {t t' : List Node} (ht : TreeInv t)
    (hlen : t'.length = t.length)
    (hkey : ∀ i, (nodeAt t' i).keysym = (nodeAt t i).keysym)
    (hnext : ∀ i, (nodeAt t' i).next = (nodeAt t i).next)
    (hsucc : ∀ i, (nodeAt t' i).successor = (nodeAt t i).successor)
    (hleaf : ∀ i, (nodeAt t i).successor ≠ 0 →
        (nodeAt t' i).utf8 = 0 ∧ (nodeAt t' i).ks = 0)
    (hroot : (nodeAt t' 0).utf8 = (nodeAt t 0).utf8 ∧ (nodeAt t' 0).ks = (nodeAt t 0).ks) :
    TreeInv t' := by
  constructor
  · rw [hlen]; exact ht.nonempty
  · rw [hkey 0]; exact ht.root_keysym
  · rw [hsucc 0]; exact ht.root_successor
  · rw [hroot.1]; exact ht.root_utf8
  · rw [hroot.2]; exact ht.root_ks
  · intro i hne
    rw [hnext i] at hne ⊢
    rw [hlen]
    exact ht.next_bound i hne
  · intro i hne
    rw [hsucc i] at hne ⊢
    rw [hlen]
    exact ht.succ_bound i hne
  · intro i hne
    rw [hsucc i] at hne
    exact hleaf i hne
  · intro i h0i hiL
    rw [hkey i]
    rw [hlen] at hiL
    exact ht.keysym_ne i h0i hiL
  · intro i j hne heq
    rw [hnext i] at hne heq
    rw [hnext j] at heq
    exact ht.next_inj i j hne heq
  · intro i j hne
    rw [hsucc i] at hne ⊢
    rw [hnext j]
    exact ht.succ_not_next i j hne
  · intro h i j hh hi hj hkeq
    rw [hkey i, hkey j] at hkeq
    exact ht.distinct h i j ((isHead_congr hsucc).mp hh)
      ((reach_congr hnext).mp hi) ((reach_congr hnext).mp hj) hkeq

/-- Writing a leaf payload into a successor-free, non-root node preserves
the tree invariant. -/
theorem set_leaf_treeInv {t : List Node} {i : Nat} {w : Node} (ht : TreeInv t)
    (hi : i < t.length) (h0 : i ≠ 0)
    (hwk : w.keysym = (nodeAt t i).keysym)
    (hwn : w.next = (nodeAt t i).next)
    (hws : w.successor = 0)
    (hs : (nodeAt t i).successor = 0) :
    TreeInv (t.set i w) := by
  have hat : ∀ j, nodeAt (t.set i w) j = if j = i then w else nodeAt t j := by
    intro j
    by_cases hj : j = i
    · subst hj; rw [if_pos rfl]; exact nodeAt_set_self _ _ _ hi
    · rw [if_neg hj]; exact nodeAt_set_ne _ _ _ _ hj
  refine treeInv_transfer ht (List.length_set t i w) ?_ ?_ ?_ ?_ ?_
  · intro j
    rw [hat j]
    by_cases hj : j = i
    · rw [if_pos hj, hj]; exact hwk
    · rw [if_neg hj]
  · intro j
    rw [hat j]
    by_cases hj : j = i
    · rw [if_pos hj, hj]; exact hwn
    · rw [if_neg hj]
  · intro j
    rw [hat j]
    by_cases hj : j = i
    · rw [if_pos hj, hj, hws, hs]
    · rw [if_neg hj]
  · intro j hne
    rw [hat j]
    by_cases hj : j = i
    · rw [hj] at hne; exact absurd hs hne
    · rw [if_neg hj]; exact ht.internal_clear j hne
  · rw [hat 0, if_neg (fun hcon => h0 hcon.symm)]
    exact ⟨rfl, rfl⟩

/-- The whole left-hand-side walk, started at the root, preserves the tree
invariant and ends at an in-range node with a real keysym. -/
theorem add_production_lhs_inv :
    ∀ (lhs : List Nat) (t : List Node) (curr : Nat), TreeInv t → IsHead t curr →
    curr < t.length → (∀ k ∈ lhs, k ≠ 0) → lhs ≠ [] →
    TreeInv (add_production_lhs t curr lhs).1 ∧
    (add_production_lhs t curr lhs).2 < (add_production_lhs t curr lhs).1.length ∧
    (nodeAt (add_production_lhs t curr lhs).1 (add_production_lhs t curr lhs).2).keysym ≠ 0 := by
  intro lhs
  induction lhs with
  | nil => intro t curr _ _ _ _ hne; exact absurd rfl hne
  | cons k tail ih =>
    intro t curr ht hhead hc hall _
    cases tail with
    | nil =>
      have hk : k ≠ 0 := hall k (by simp)
      have h := find_or_add_inv ht hhead hc hk
      have hgoal : add_production_lhs t curr [k] = find_or_add t t.length curr k := by
        simp [add_production_lhs]
      rw [hgoal]
      exact ⟨h.1, h.2.1, by rw [h.2.2]; exact hk⟩
    | cons k2 rest =>
      have hk : k ≠ 0 := hall k (by simp)
      have hk2 : k2 ≠ 0 := hall k2 (by simp)
      have h1 := find_or_add_inv ht hhead hc hk
      have hkey1 : (nodeAt (find_or_add t t.length curr k).1
          (find_or_add t t.length curr k).2).keysym ≠ 0 := by
        rw [h1.2.2]; exact hk
      have h2 := descend_or_add_inv h1.1 h1.2.1 hkey1 hk2
      have h3 := ih (descend_or_add (find_or_add t t.length curr k).1
          (find_or_add t t.length curr k).2 k2).1
        (descend_or_add (find_or_add t t.length curr k).1
          (find_or_add t t.length curr k).2 k2).2
        h2.1 h2.2.2 h2.2.1
        (fun x hx => hall x (List.mem_cons_of_mem k hx)) (by simp)
      have hgoal : add_production_lhs t curr (k :: k2 :: rest) =
          add_production_lhs (descend_or_add (find_or_add t t.length curr k).1
            (find_or_add t t.length curr k).2 k2).1
          (descend_or_add (find_or_add t t.length curr k).1
            (find_or_add t t.length curr k).2 k2).2 (k2 :: rest) := by
        simp [add_production_lhs]
      rw [hgoal]
      exact h3

/-- add_production preserves the table invariant. -/
theorem add_production_inv {c : xkb_compose} {p : Production}
    (hc : TableInv c) (hp : GoodProd p) : TableInv (add_production c p) := by
  obtain ⟨hne, hall⟩ := hp
  have h := add_production_lhs_inv p.lhs c.tree 0 hc.tree (Or.inl rfl)
    hc.tree.nonempty hall hne
  have hblob2 : ∀ (l : List Char), (c.utf8 ++ l).head? = some (Char.ofNat 0) := by
    intro l
    have hz := hc.blob_zero
    cases hcu : c.utf8 with
    | nil => rw [hcu] at hz; exact absurd hz (by simp)
    | cons a tl =>
      rw [hcu] at hz
      simp at hz
      simp [hz]
  have h0 : (add_production_lhs c.tree 0 p.lhs).2 ≠ 0 := by
    intro hcon
    apply h.2.2
    rw [hcon]
    exact h.1.root_keysym
  simp only [add_production]
  by_cases h1 : (nodeAt (add_production_lhs c.tree 0 p.lhs).1
      (add_production_lhs c.tree 0 p.lhs).2).successor ≠ 0
  · rw [if_pos h1]
    exact ⟨h.1, hc.blob_zero⟩
  · rw [if_neg h1]
    push_neg at h1
    by_cases h2 : (nodeAt (add_production_lhs c.tree 0 p.lhs).1
        (add_production_lhs c.tree 0 p.lhs).2).utf8 ≠ 0 ∨
      (nodeAt (add_production_lhs c.tree 0 p.lhs).1
        (add_production_lhs c.tree 0 p.lhs).2).ks ≠ 0
    · rw [if_pos h2]
      exact ⟨h.1, hc.blob_zero⟩
    · rw [if_neg h2]
      refine ⟨set_leaf_treeInv h.1 h.2.1 h0 ?_ ?_ ?_ h1, ?_⟩
      · cases p.has_string <;> cases p.has_keysym <;> rfl
      · cases p.has_string <;> cases p.has_keysym <;> rfl
      · cases p.has_string <;> cases p.has_keysym <;> exact h1
      · cases p.has_string
        · exact hc.blob_zero
        · show (c.utf8 ++ p.string.data ++ [Char.ofNat 0]).head? = some (Char.ofNat 0)
          rw [List.append_assoc]
          exact hblob2 _

/-- The invariant holds for the freshly constructed table. -/
theorem treeInv_new : TreeInv [Node.empty] := by
  have hz : ∀ i, nodeAt [Node.empty] i = Node.empty := by
    intro i
    cases i with
    | zero => rfl
    | succ n => exact nodeAt_out _ _ (by simp)
  constructor
  · simp
  · rw [hz 0]; rfl
  · rw [hz 0]; rfl
  · rw [hz 0]; rfl
  · rw [hz 0]; rfl
  · intro i hne; rw [hz i] at hne; exact absurd rfl hne
  · intro i hne; rw [hz i] at hne; exact absurd rfl hne
  · intro i hne; rw [hz i] at hne; exact absurd rfl hne
  · intro i h0i hiL
    simp at hiL
    omega
  · intro i j hne _; rw [hz i] at hne; exact absurd rfl hne
  · intro i j hne; rw [hz i] at hne; exact absurd rfl hne
  · intro h i j _ hi hj _
    have hstep : ∀ x y, Reach [Node.empty] x y → y = x := by
      intro x y hr
      refine reach_next0 hr ?_
      rw [hz x]
      rfl
    rw [hstep h i hi, hstep h j hj]

/-- Every built table satisfies the invariant. -/
theorem built_tableInv {c : xkb_compose} (h : Built c) : TableInv c := by
  induction h with
  | base => exact ⟨treeInv_new, rfl⟩
  | step hb hg ih => exact add_production_inv ih hg

/-! ## Claim C3: the root node -/

/-- Claim C3 counterexample: after one add_production the root has a
nonzero next field (it points at the first top-level alternative), while
the claim asserts next stays 0 on every built table. -/
theorem root_next_counterexample :
    Built tableOne ∧ (nodeAt tableOne.tree 0).next = 1 :=
  ⟨Built.step Built.base (by decide), by decide⟩

/-- Claim C3 amended: after construction and after every add_production,
the root has keysym NoSymbol and successor 0; the first top-level
alternative hangs off the root through its next field, which is either 0
or an in-range index, larger than 0, of a node with a real keysym. -/
theorem root_node_invariant (c : xkb_compose) (h : Built c) :
    (nodeAt c.tree 0).keysym = 0 ∧ (nodeAt c.tree 0).successor = 0 ∧
    ((nodeAt c.tree 0).next = 0 ∨
      (0 < (nodeAt c.tree 0).next ∧ (nodeAt c.tree 0).next < c.tree.length ∧
        (nodeAt c.tree (nodeAt c.tree 0).next).keysym ≠ 0)) := by
  have ht := (built_tableInv h).tree
  refine ⟨ht.root_keysym, ht.root_successor, ?_⟩
  by_cases hn : (nodeAt c.tree 0).next = 0
  · exact Or.inl hn
  · have hb := ht.next_bound 0 hn
    exact Or.inr ⟨hb.1, hb.2, ht.keysym_ne _ hb.1 hb.2⟩

theorem root_node_invariant_witness :
    (nodeAt tableOne.tree 0).keysym = 0 ∧ (nodeAt tableOne.tree 0).successor = 0 ∧
    ((nodeAt tableOne.tree 0).next = 0 ∨
      (0 < (nodeAt tableOne.tree 0).next ∧
        (nodeAt tableOne.tree 0).next < tableOne.tree.length ∧
        (nodeAt tableOne.tree (nodeAt tableOne.tree 0).next).keysym ≠ 0)) :=
  root_node_invariant tableOne (Built.step Built.base (by decide))

/-! ## Claim C6: internal nodes carry no leaf payload -/

/-- Claim C6: in every built table, a node with a successor has utf8 = 0
and ks = NoSymbol; add_production preserves this, the prefix-override
step clearing utf8 and ks before the node receives its successor. -/
theorem internal_not_leaf (c : xkb_compose) (h : Built c) :
    ∀ i, (nodeAt c.tree i).successor ≠ 0 →
      (nodeAt c.tree i).utf8 = 0 ∧ (nodeAt c.tree i).ks = 0 :=
  (built_tableInv h).tree.internal_clear

theorem internal_not_leaf_witness :
    (nodeAt tableTwo.tree 1).utf8 = 0 ∧ (nodeAt tableTwo.tree 1).ks = 0 :=
  internal_not_leaf tableTwo (Built.step Built.base (by decide)) 1 (by decide)

/-! ## Claim C9: sibling keysyms are pairwise distinct -/

/-- Claim C9: in every built table, along the sibling chain of next links
from any chain head, keysym values are pairwise distinct (two chain
positions with equal keysyms coincide); add_production preserves this by
searching the whole chain before appending a fresh node. -/
theorem sibling_keysyms_distinct (c : xkb_compose) (hb : Built c) (h i j : Nat)
    (hhead : IsHead c.tree h) (hi : Reach c.tree h i) (hj : Reach c.tree h j)
    (hk : (nodeAt c.tree i).keysym = (nodeAt c.tree j).keysym) : i = j :=
  (built_tableInv hb).tree.distinct h i j hhead hi hj hk

theorem sibling_keysyms_distinct_witness : (1 : Nat) = 1 := by
  have hreach : Reach tableOne.tree 0 1 := by
    have hn : (nodeAt tableOne.tree 0).next = 1 := by decide
    have hr : Reach tableOne.tree 0 ((nodeAt tableOne.tree 0).next) :=
      Reach.tail (Reach.refl 0) (by rw [hn]; omega)
    rw [hn] at hr
    exact hr
  exact sibling_keysyms_distinct tableOne (Built.step Built.base (by decide)) 0 1 1
    (Or.inl rfl) hreach hreach rfl

/-! ## Claim C10: result accessors outside the COMPOSED state -/

/-- Claim C10: whenever context is 0 (status NOTHING or CANCELLED) or the
current node is internal (status COMPOSING), get_utf8 stores the empty
string and returns 0 for any buffer size and any external conversion, and
get_one_sym returns NoSymbol. -/
theorem accessors_empty_unless_composed (c : xkb_compose) (hb : Built c)
    (st : xkb_compose_state)
    (h : st.context = 0 ∨ (nodeAt c.tree st.context).successor ≠ 0) :
    (∀ (f : Nat → Nat → Nat × String) (size : Nat),
      xkb_compose_state_get_utf8 f c st size = (0, "")) ∧
    xkb_compose_state_get_one_sym c st = 0 := by
  have ht := built_tableInv hb
  have hclear : (nodeAt c.tree st.context).utf8 = 0 ∧ (nodeAt c.tree st.context).ks = 0 := by
    rcases h with h0 | hint
    · rw [h0]
      exact ⟨ht.tree.root_utf8, ht.tree.root_ks⟩
    · exact ht.tree.internal_clear _ hint
  have hempty : strFromBlob c.utf8 0 = "" := by
    have hz := ht.blob_zero
    cases hcu : c.utf8 with
    | nil => rw [hcu] at hz; exact absurd hz (by simp)
    | cons a tl =>
      rw [hcu] at hz
      simp at hz
      unfold strFromBlob
      simp [hz]
  constructor
  · intro f size
    unfold xkb_compose_state_get_utf8
    rw [if_neg (by rw [hclear.2]; simp)]
    rw [hclear.1, hempty]
    unfold snprintf_model
    simp
  · unfold xkb_compose_state_get_one_sym
    exact hclear.2

theorem accessors_empty_unless_composed_witness :
    xkb_compose_state_get_utf8 sampleKsToUtf8 tableOne xkb_compose_state_new 3 = (0, "") ∧
    xkb_compose_state_get_one_sym tableOne xkb_compose_state_new = 0 := by
  have h := accessors_empty_unless_composed tableOne (Built.step Built.base (by decide))
    xkb_compose_state_new (Or.inl rfl)
  exact ⟨h.1 sampleKsToUtf8 3, h.2⟩
